import Mathlib

/-
Shallow embedding of `src/ggpa/mcts_bot.py` (an MCTS game-playing agent).

Conventions of the embedding:
- Python's mutable tree of `TreeNode` objects becomes a purely functional
  tree; `backpropagate`, which in Python walks the chain of `parent`
  pointers, becomes (a) an explicit function on the list of ancestors and
  (b) a per-level update (`bpNode`) that `select` applies as results flow
  back up the recursion, which is the same sequence of field updates.
- The external game state (`BattleState`) is an abstract collaborator; it
  is modelled by a structure `Game` of the pure operations the bot calls
  (`get_actions`, `step`, `ended`, `score`, `health`,
  `copy_undeterministic`, `to_action`, and the base class's
  `get_choose_card_options`).
- `random.choice` is modelled by an explicit oracle tape of naturals:
  each call consumes the head of the tape and indexes the list modulo its
  length; `random.choice` on an empty list is Python's `IndexError`.
- Python floats are modelled by `ℚ` for state scores and rewards, and the
  UCB-1 priority (`math.sqrt`, `math.log`, `float('inf')`) by `EReal`
  with `Real.sqrt` / `Real.log` (with `⊤` for the infinity).
- `rollout`'s unbounded `while` loop, and the recursion of `select`, are
  given an explicit fuel parameter; running out of fuel is reported as
  `Err.fuelOut`, a modelling marker distinct from any Python exception.
- Python exceptions are modelled by `Except Err`.
-/

set_option maxRecDepth 8000

namespace MctsSpec

/-- Python-level failures the translated code can raise (`IndexError` from
`random.choice` on an empty sequence, `ValueError` from `max` on an empty
iterable, `KeyError` from a dict lookup), plus `fuelOut`, the marker for a
loop or recursion that did not finish within the modelling fuel. -/
inductive Err : Type where
  | indexError : Err
  | valueError : Err
  | keyError : Err
  | fuelOut : Err
  deriving DecidableEq

/-- Model of `random.choice(l)`: consume one natural from the oracle tape
and index the list with it modulo the length.  On an empty list Python
raises `IndexError`, modelled by `none`. -/
def pick {α : Type} (tape : List ℕ) (l : List α) : Option (α × List ℕ) :=
  match l with
  | [] => none
  | a :: _ => some (l.getD (tape.headD 0 % l.length) a, tape.tail)

/-- The external game-state collaborator, i.e. the interface of
`BattleState` (plus `GGPA.get_choose_card_options`) that `mcts_bot.py`
uses.  `S` is the state type, `A` the action type (`get_actions`
elements), `B` the committable-action type (`to_action` results). -/
structure Game (S A B : Type) where
  key : A → ℕ
  getActions : S → List A
  step : S → A → S
  ended : S → Bool
  score : S → ℚ
  health : S → ℚ
  copyUndet : S → S
  toAction : A → S → B
  chooseOptions : S → List B

/-- `TreeNode` from `mcts_bot.py`: `children` is the dict
`action.key(): (action, TreeNode)` in insertion order, `action` the action
that led here (`none` for the root), `param` the UCB exploration
parameter, plus `visits` and `total_reward`.  The Python `parent` back
pointer is not stored: backpropagation is performed along the recursion
path instead. -/
inductive TreeNode (A : Type) : Type where
  | mk (children : List (ℕ × A × TreeNode A)) (action : Option A)
      (param : ℚ) (visits : ℕ) (totalReward : ℚ) : TreeNode A

def TreeNode.children {A : Type} : TreeNode A → List (ℕ × A × TreeNode A)
  | .mk cs _ _ _ _ => cs

def TreeNode.action {A : Type} : TreeNode A → Option A
  | .mk _ a _ _ _ => a

def TreeNode.param {A : Type} : TreeNode A → ℚ
  | .mk _ _ p _ _ => p

def TreeNode.visits {A : Type} : TreeNode A → ℕ
  | .mk _ _ _ v _ => v

def TreeNode.totalReward {A : Type} : TreeNode A → ℚ
  | .mk _ _ _ _ r => r

@[simp] theorem TreeNode.children_mk {A : Type} (cs : List (ℕ × A × TreeNode A))
    (a : Option A) (p : ℚ) (v : ℕ) (r : ℚ) :
    (TreeNode.mk cs a p v r).children = cs := rfl

@[simp] theorem TreeNode.action_mk {A : Type} (cs : List (ℕ × A × TreeNode A))
    (a : Option A) (p : ℚ) (v : ℕ) (r : ℚ) :
    (TreeNode.mk cs a p v r).action = a := rfl

@[simp] theorem TreeNode.param_mk {A : Type} (cs : List (ℕ × A × TreeNode A))
    (a : Option A) (p : ℚ) (v : ℕ) (r : ℚ) :
    (TreeNode.mk cs a p v r).param = p := rfl

@[simp] theorem TreeNode.visits_mk {A : Type} (cs : List (ℕ × A × TreeNode A))
    (a : Option A) (p : ℚ) (v : ℕ) (r : ℚ) :
    (TreeNode.mk cs a p v r).visits = v := rfl

@[simp] theorem TreeNode.totalReward_mk {A : Type} (cs : List (ℕ × A × TreeNode A))
    (a : Option A) (p : ℚ) (v : ℕ) (r : ℚ) :
    (TreeNode.mk cs a p v r).totalReward = r := rfl

/-- The per-node effect of one `backpropagate` call (`mcts_bot.py`
lines 127-128): `self.visits += 1; self.total_reward += result`. -/
def bpNode {A : Type} (result : ℚ) : TreeNode A → TreeNode A
  | .mk cs a p v r => .mk cs a p (v + 1) (r + result)

@[simp] theorem bpNode_children {A : Type} (result : ℚ) (n : TreeNode A) :
    (bpNode result n).children = n.children := by cases n; rfl

@[simp] theorem bpNode_action {A : Type} (result : ℚ) (n : TreeNode A) :
    (bpNode result n).action = n.action := by cases n; rfl

@[simp] theorem bpNode_param {A : Type} (result : ℚ) (n : TreeNode A) :
    (bpNode result n).param = n.param := by cases n; rfl

@[simp] theorem bpNode_visits {A : Type} (result : ℚ) (n : TreeNode A) :
    (bpNode result n).visits = n.visits + 1 := by cases n; rfl

@[simp] theorem bpNode_totalReward {A : Type} (result : ℚ) (n : TreeNode A) :
    (bpNode result n).totalReward = n.totalReward + result := by cases n; rfl

/-- `TreeNode.backpropagate` (lines 126-130), viewed on the chain
`[node, parent, grandparent, ..., root]` that the Python parent pointers
traverse: update the current node, then recurse on the parent chain. -/
def backpropagate {A : Type} (result : ℚ) : List (TreeNode A) → List (TreeNode A)
  | [] => []
  | n :: ancestors => bpNode result n :: backpropagate result ancestors

/-- `TreeNode.average_score` (lines 94-97): `0` when unvisited, otherwise
`total_reward / visits`. -/
def TreeNode.averageScore {A : Type} (n : TreeNode A) : ℚ :=
  if n.visits = 0 then 0 else n.totalReward / (n.visits : ℚ)

/-- `TreeNode.ucb_score` (lines 87-92): `float('inf')` when unvisited,
otherwise `average_score + param * sqrt(log(parent_visits) / visits)`,
over `EReal` with real `sqrt`/`log`.  (Python's `math.log` raises on `0`;
`Real.log 0 = 0` here, and the theorems about this function restrict to
`parent_visits ≥ 1`, the only case the search can reach.) -/
noncomputable def TreeNode.ucbScore {A : Type} (n : TreeNode A)
    (parentVisits : ℕ) (param : ℚ) : EReal :=
  if n.visits = 0 then ⊤
  else (((n.averageScore : ℝ) +
      (param : ℝ) * Real.sqrt (Real.log (parentVisits : ℝ) / (n.visits : ℝ))) : ℝ)

/-- `TreeNode.score` (lines 135-138): the evaluation heuristic
`state.score() * (0.5 + 0.5 * state.health())`. -/
def heuristicScore {S A B : Type} (G : Game S A B) (s : S) : ℚ :=
  G.score s * (1/2 + 1/2 * G.health s)

/-- Python's `max(x :: l, key := f)`: left fold keeping the first element
whose key is maximal (later elements replace only on strictly greater
key). -/
def maxBy1 {α β : Type} [LinearOrder β] (f : α → β) (x : α) (l : List α) : α :=
  l.foldl (fun b y => if f b < f y then y else b) x

/-- Python's `max(iterable, key := f)` on a possibly empty iterable:
`none` models the `ValueError` raised on an empty one. -/
def maxBy {α β : Type} [LinearOrder β] (f : α → β) : List α → Option α
  | [] => none
  | x :: l => some (maxBy1 f x l)

/-- `action.key() in self.children` (line 68): membership in the keys of
the children dict. -/
def hasKey {A : Type} (n : TreeNode A) (k : ℕ) : Bool :=
  n.children.any (fun e => e.1 == k)

/-- `{a.key(): a for a in actions}[k]` (lines 73, 80): a dict
comprehension keeps the last action with a given key, so look the key up
from the right. -/
def dictLast {S A B : Type} (G : Game S A B) (actions : List A) (k : ℕ) : Option A :=
  actions.reverse.find? (fun a => G.key a == k)

/-- In-place mutation of the child stored under key `k` (the effect of
`best_child.select(state)` on the tuple `self.children[key]`): replace
the first entry with that key, keeping its position and stored action. -/
def updateChild {A : Type} (k : ℕ) (c2 : TreeNode A) :
    List (ℕ × A × TreeNode A) → List (ℕ × A × TreeNode A)
  | [] => []
  | (k1, a1, c1) :: rest =>
      if k1 = k then (k1, a1, c2) :: rest else (k1, a1, c1) :: updateChild k c2 rest

/-- Replace the children list of a node, keeping the other fields. -/
def withChildren {A : Type} : TreeNode A → List (ℕ × A × TreeNode A) → TreeNode A
  | .mk _ a p v r, cs => .mk cs a p v r

@[simp] theorem withChildren_children {A : Type} (n : TreeNode A)
    (cs : List (ℕ × A × TreeNode A)) : (withChildren n cs).children = cs := by
  cases n; rfl

@[simp] theorem withChildren_visits {A : Type} (n : TreeNode A)
    (cs : List (ℕ × A × TreeNode A)) : (withChildren n cs).visits = n.visits := by
  cases n; rfl

@[simp] theorem withChildren_param {A : Type} (n : TreeNode A)
    (cs : List (ℕ × A × TreeNode A)) : (withChildren n cs).param = n.param := by
  cases n; rfl

@[simp] theorem withChildren_totalReward {A : Type} (n : TreeNode A)
    (cs : List (ℕ × A × TreeNode A)) : (withChildren n cs).totalReward = n.totalReward := by
  cases n; rfl

/-- Sum of the `visits` counters over a node's direct children. -/
def childVisitSum {A : Type} (n : TreeNode A) : ℕ :=
  (n.children.map (fun e => e.2.2.visits)).sum

/-- The `while` loop of `TreeNode.rollout` (lines 113-118): while the
state is not `ended`, enumerate actions, stop if none remain, otherwise
apply a randomly chosen one.  `fuel` bounds the number of loop
iterations; `none` means the loop did not finish within `fuel` steps. -/
def playout {S A B : Type} (G : Game S A B) :
    ℕ → S → List ℕ → Option (S × List ℕ)
  | 0, s, tape =>
    if G.ended s then some (s, tape)
    else if (G.getActions s).isEmpty then some (s, tape)
    else none
  | fuel + 1, s, tape =>
    if G.ended s then some (s, tape)
    else if (G.getActions s).isEmpty then some (s, tape)
    else
      match pick tape (G.getActions s) with
      | none => none
      | some (a, tape1) => playout G fuel (G.step s a) tape1

/-- `TreeNode.rollout` (lines 112-120): run the playout loop, score the
resulting state, and backpropagate that result starting from this node
(the node's own update; ancestors receive the returned result as the
recursion of `select` unwinds). -/
def rollout {S A B : Type} (G : Game S A B) (fuel : ℕ) (n : TreeNode A) (s : S)
    (tape : List ℕ) : Except Err (TreeNode A × ℚ × List ℕ) :=
  match playout G fuel s tape with
  | none => .error .fuelOut
  | some (s2, tape2) =>
      .ok (bpNode (heuristicScore G s2) n, heuristicScore G s2, tape2)

/-- `TreeNode.expand` (lines 102-108): pick a random unexplored action,
create a fresh child for it, insert it into the children dict (a new key,
so an append), apply the action to the state, and roll out from the new
child. -/
def expand {S A B : Type} (G : Game S A B) (fuel : ℕ) (n : TreeNode A) (s : S)
    (available : List A) (tape : List ℕ) : Except Err (TreeNode A × ℚ × List ℕ) :=
  match pick tape available with
  | none => .error .indexError
  | some (a, tape1) =>
    match rollout G fuel (TreeNode.mk [] (some a) n.param 0 0) (G.step s a) tape1 with
    | .error e => .error e
    | .ok (child2, r, tape2) =>
        .ok (bpNode r (withChildren n (n.children ++ [(G.key a, a, child2)])), r, tape2)

/-- `TreeNode.select` (lines 59-85).  If the state has no actions,
evaluate and backpropagate here.  Else if some actions are unexplored,
expand.  Else if the node has children, take the child maximising
`ucb_score(self.visits, self.param)` among the children whose key is
still a legal action's key (`max` on an empty generator is `ValueError`),
apply the current state's version of that action, and recurse into the
child.  Else evaluate and backpropagate here.  The first fuel argument
bounds the recursion depth and is passed on to `rollout`. -/
noncomputable def select {S A B : Type} (G : Game S A B) :
    ℕ → TreeNode A → S → List ℕ → Except Err (TreeNode A × ℚ × List ℕ)
  | 0, _, _, _ => .error .fuelOut
  | fuel + 1, n, s, tape =>
    if (G.getActions s).isEmpty then
      .ok (bpNode (heuristicScore G s) n, heuristicScore G s, tape)
    else if !((G.getActions s).filter (fun a => !(hasKey n (G.key a)))).isEmpty then
      expand G fuel n s ((G.getActions s).filter (fun a => !(hasKey n (G.key a)))) tape
    else if !(n.children.isEmpty) then
      match maxBy (fun e => e.2.2.ucbScore n.visits n.param)
          (n.children.filter (fun e => ((G.getActions s).map G.key).contains e.1)) with
      | none => .error .valueError
      | some (k, _, ch) =>
        match dictLast G (G.getActions s) k with
        | none => .error .keyError
        | some aCur =>
          match select G fuel ch (G.step s aCur) tape with
          | .error e => .error e
          | .ok (ch2, r, tape2) =>
              .ok (bpNode r (withChildren n (updateChild k ch2 n.children)), r, tape2)
    else
      .ok (bpNode (heuristicScore G s) n, heuristicScore G s, tape)

/-- `TreeNode.get_best` (lines 39-42): with no children, a random choice
among the state's actions (Python's implicit `None` return is impossible,
hence the `some` in every successful branch); otherwise the child of
maximal `average_score` over all children, unfiltered. -/
def getBest {S A B : Type} (G : Game S A B) (n : TreeNode A) (s : S)
    (tape : List ℕ) : Except Err (Option A × List ℕ) :=
  match n.children with
  | [] =>
    match pick tape (G.getActions s) with
    | none => .error .indexError
    | some (a, tape1) => .ok (some a, tape1)
  | e :: rest =>
      .ok (some (maxBy1 (fun e2 => e2.2.2.averageScore) e rest).2.1, tape)

/-- The iteration loop of `MCTSAgent.choose_card` (lines 157-159)
together with `TreeNode.step` (lines 30-34): each iteration clones the
real state (`copy_undeterministic`, once in the driver loop and once
inside `step`) and runs `select` on the root with the clone.  The final
`ℕ` counts the iterations whose working clone had no legal actions (the
iterations that terminated at the root itself as a leaf). -/
noncomputable def runIters {S A B : Type} (G : Game S A B) (s : S) :
    ℕ → ℕ → TreeNode A → List ℕ → Except Err (TreeNode A × List ℕ × ℕ)
  | 0, _, t, tape => .ok (t, tape, 0)
  | N + 1, fuel, t, tape =>
    match select G fuel t (G.copyUndet (G.copyUndet s)) tape with
    | .error e => .error e
    | .ok (t1, _, tape1) =>
      match runIters G s N fuel t1 tape1 with
      | .error e => .error e
      | .ok (t2, tape2, c) =>
          .ok (t2, tape2,
            c + (if (G.getActions (G.copyUndet (G.copyUndet s))).isEmpty then 1 else 0))

/-- `MCTSAgent.choose_card` (lines 149-168).  Exactly one legal action:
return it converted, immediately.  Otherwise build a fresh root, run the
iterations, and ask `get_best`; if that returned Python `None` (it cannot,
see `getBest`), warn and fall back to a random
`get_choose_card_options` choice.  The boolean in the result records
whether the warning branch ran. -/
noncomputable def chooseCard {S A B : Type} (G : Game S A B) (p : ℚ)
    (iterations fuel : ℕ) (s : S) (tape : List ℕ) : Except Err (B × Bool) :=
  if (G.getActions s).length = 1 then
    match G.getActions s with
    | a :: _ => .ok (G.toAction a s, false)
    | [] => .error .indexError
  else
    match runIters G s iterations fuel (TreeNode.mk [] none p 0 0) tape with
    | .error e => .error e
    | .ok (t, tape1, _) =>
      match getBest G t s tape1 with
      | .error e => .error e
      | .ok (none, tape2) =>
        match pick tape2 (G.chooseOptions s) with
        | none => .error .indexError
        | some (b, _) => .ok (b, true)
      | .ok (some a, _) => .ok (G.toAction a s, false)

/-- Well-formedness of a tree: the children dict of every node has
distinct keys (automatic for a Python dict). -/
inductive WF {A : Type} : TreeNode A → Prop where
  | mk : ∀ (cs : List (ℕ × A × TreeNode A)) (a : Option A) (p : ℚ) (v : ℕ) (r : ℚ),
      (cs.map (fun e => e.1)).Nodup → (∀ e ∈ cs, WF e.2.2) →
      WF (TreeNode.mk cs a p v r)

/-- A family of tiny concrete game states used to evaluate the embedding
on closed inputs: states, actions and committable actions are all
naturals, applying action `a` in any state leads to state `10 + a`, and
states `≥ 10` are terminal. -/
def toyGame (acts : ℕ → List ℕ) (sc hl : ℕ → ℚ) (cu : ℕ → ℕ) : Game ℕ ℕ ℕ where
  key := fun a => a
  getActions := acts
  step := fun _ a => 10 + a
  ended := fun s => decide (10 ≤ s)
  score := sc
  health := hl
  copyUndet := cu
  toAction := fun a _ => a
  chooseOptions := fun _ => []

/-- A game whose real state `0` offers actions `1` and `2`, while the
stochastic clone of any state is state `5`, which offers only action `9`:
the clones' legal actions are disjoint from the real state's. -/
def staleCloneGame : Game ℕ ℕ ℕ :=
  toyGame (fun s => if s = 0 then [1, 2] else if s = 5 then [9] else [])
    (fun _ => 0) (fun _ => 0) (fun _ => 5)

/-- The tree `chooseCard staleCloneGame` builds in one iteration: one
child for the clone-only action `9`. -/
def staleCloneTree : TreeNode ℕ :=
  TreeNode.mk [(9, 9, TreeNode.mk [] (some 9) 0 1 0)] none 0 1 0

/-- A game with no legal action in any state. -/
def emptyActionsGame : Game ℕ ℕ ℕ :=
  toyGame (fun _ => []) (fun _ => 0) (fun _ => 0) (fun s => s)

/-- A game whose state `0` offers exactly the two actions `1` and `2`. -/
def twoActionGame : Game ℕ ℕ ℕ :=
  toyGame (fun s => if s = 0 then [1, 2] else []) (fun _ => 0) (fun _ => 0)
    (fun s => s)

/-- The tree two iterations of `twoActionGame` search build: one visited
child per action. -/
def twoActionTree : TreeNode ℕ :=
  TreeNode.mk [(1, 1, TreeNode.mk [] (some 1) 0 1 0),
    (2, 2, TreeNode.mk [] (some 2) 0 1 0)] none 0 2 0

/-- A game whose state `0` offers exactly action `7`. -/
def staleChildGame : Game ℕ ℕ ℕ :=
  toyGame (fun s => if s = 0 then [7] else []) (fun _ => 0) (fun _ => 0)
    (fun s => s)

/-- A node holding one recorded child for action key `5`, which is not
legal in `staleChildGame`'s state `0`. -/
def staleChildTree : TreeNode ℕ :=
  TreeNode.mk [(5, 5, TreeNode.mk [] (some 5) 0 1 0)] none 0 1 0

/-- What `select` turns `staleChildTree` into: the legal action `7` was
expanded as a second child. -/
def staleChildTreeAfter : TreeNode ℕ :=
  TreeNode.mk [(5, 5, TreeNode.mk [] (some 5) 0 1 0),
    (7, 7, TreeNode.mk [] (some 7) 0 1 0)] none 0 2 0

/-- A game whose state `0` offers exactly action `4`. -/
def oneStepGame : Game ℕ ℕ ℕ :=
  toyGame (fun s => if s = 0 then [4] else []) (fun _ => 0) (fun _ => 0)
    (fun s => s)

/-- A game whose state `0` offers exactly action `3`. -/
def singleActionGame : Game ℕ ℕ ℕ :=
  toyGame (fun s => if s = 0 then [3] else []) (fun _ => 0) (fun _ => 0)
    (fun s => s)

/-- A game with constant negative score `-2` and health equal to the
state number. -/
def negScoreGame : Game ℕ ℕ ℕ :=
  toyGame (fun _ => []) (fun _ => -2) (fun s => (s : ℚ)) (fun s => s)

/-- A game with constant positive score `2` and health equal to the
state number. -/
def posScoreGame : Game ℕ ℕ ℕ :=
  toyGame (fun _ => []) (fun _ => 2) (fun s => (s : ℚ)) (fun s => s)

/-- `pick` on a nonempty list consumes one tape element and returns some
member of the list. -/
theorem pick_cons {α : Type} (tape : List ℕ) (a : α) (l : List α) :
    ∃ b, pick tape (a :: l) = some (b, tape.tail) ∧ b ∈ a :: l := by
  refine ⟨(a :: l).getD (tape.headD 0 % (a :: l).length) a, rfl, ?_⟩
  have h : tape.headD 0 % (a :: l).length < (a :: l).length :=
    Nat.mod_lt _ (by simp)
  rw [List.getD_eq_getElem?_getD, List.getElem?_eq_getElem h]
  exact List.getElem_mem h

/-- Anything `pick` returns is a member of the list. -/
theorem pick_some_mem {α : Type} {tape : List ℕ} {l : List α} {b : α}
    {tape2 : List ℕ} (h : pick tape l = some (b, tape2)) :
    b ∈ l ∧ tape2 = tape.tail := by
  cases l with
  | nil => simp [pick] at h
  | cons a l =>
    rcases pick_cons tape a l with ⟨b2, hb2, hmem⟩
    rw [hb2] at h
    cases h
    exact ⟨hmem, rfl⟩

theorem maxBy1_cons {α β : Type} [LinearOrder β] (f : α → β) (x y : α)
    (l : List α) :
    maxBy1 f x (y :: l) = maxBy1 f (if f x < f y then y else x) l := rfl

/-- Python's `max` returns an element of its argument. -/
theorem maxBy1_mem {α β : Type} [LinearOrder β] (f : α → β) (x : α) (l : List α) :
    maxBy1 f x l ∈ x :: l := by
  induction l generalizing x with
  | nil => simp [maxBy1]
  | cons y l ih =>
    rw [maxBy1_cons]
    have h := ih (if f x < f y then y else x)
    rcases List.mem_cons.1 h with h1 | h1
    · rw [h1]
      split <;> simp
    · simp [h1]

theorem le_maxBy1_start {α β : Type} [LinearOrder β] (f : α → β) (x : α)
    (l : List α) : f x ≤ f (maxBy1 f x l) := by
  induction l generalizing x with
  | nil => simp [maxBy1]
  | cons y l ih =>
    rw [maxBy1_cons]
    refine le_trans ?_ (ih (if f x < f y then y else x))
    split
    · exact le_of_lt (by assumption)
    · exact le_refl _

/-- Python's `max` dominates every element of its argument. -/
theorem maxBy1_ge {α β : Type} [LinearOrder β] (f : α → β) (x : α) (l : List α) :
    ∀ y ∈ x :: l, f y ≤ f (maxBy1 f x l) := by
  induction l generalizing x with
  | nil =>
    intro y hy
    simp only [List.mem_singleton] at hy
    simp [maxBy1, hy]
  | cons z l ih =>
    intro y hy
    rw [maxBy1_cons]
    rcases List.mem_cons.1 hy with h1 | h1
    · subst h1
      refine le_trans ?_ (le_maxBy1_start f _ l)
      split
      · exact le_of_lt (by assumption)
      · exact le_refl _
    · rcases List.mem_cons.1 h1 with h2 | h2
      · subst h2
        refine le_trans ?_ (le_maxBy1_start f _ l)
        split
        · exact le_refl _
        · exact le_of_not_lt (by assumption)
      · exact ih _ y (List.mem_cons_of_mem _ h2)

theorem maxBy_mem {α β : Type} [LinearOrder β] (f : α → β) {l : List α} {c : α}
    (h : maxBy f l = some c) : c ∈ l := by
  cases l with
  | nil => simp [maxBy] at h
  | cons x l =>
    simp only [maxBy, Option.some.injEq] at h
    exact h ▸ maxBy1_mem f x l

theorem maxBy_ge {α β : Type} [LinearOrder β] (f : α → β) {l : List α} {c : α}
    (h : maxBy f l = some c) : ∀ y ∈ l, f y ≤ f c := by
  cases l with
  | nil => simp [maxBy] at h
  | cons x l =>
    simp only [maxBy, Option.some.injEq] at h
    exact h ▸ maxBy1_ge f x l

/-- Unfolding of the key-membership test against the children dict. -/
theorem hasKey_eq_false {A : Type} {n : TreeNode A} {k : ℕ}
    (h : hasKey n k = false) : ∀ e ∈ n.children, e.1 ≠ k := by
  intro e he
  simp only [hasKey, List.any_eq_false] at h
  simpa using h e he

/-- A key that occurs among the actions' keys is found by the dict
comprehension `{a.key(): a for a in actions}`. -/
theorem dictLast_isSome {S A B : Type} (G : Game S A B) {actions : List A}
    {k : ℕ} (h : k ∈ actions.map G.key) :
    ∃ a, dictLast G actions k = some a ∧ G.key a = k ∧ a ∈ actions := by
  rcases List.mem_map.1 h with ⟨a0, ha0, hk⟩
  have hs : (actions.reverse.find? (fun a => G.key a == k)).isSome := by
    rw [List.find?_isSome]
    exact ⟨a0, by simp [ha0], by simp [hk]⟩
  rcases Option.isSome_iff_exists.1 hs with ⟨a, ha⟩
  refine ⟨a, ha, ?_, ?_⟩
  · have := List.find?_some ha
    simpa using this
  · have := List.mem_of_find?_eq_some ha
    simpa using this

theorem updateChild_keys {A : Type} (k : ℕ) (c2 : TreeNode A)
    (l : List (ℕ × A × TreeNode A)) :
    (updateChild k c2 l).map (fun e => e.1) = l.map (fun e => e.1) := by
  induction l with
  | nil => rfl
  | cons e rest ih =>
    rcases e with ⟨k1, a1, c1⟩
    rw [updateChild]
    split
    · simp
    · simpa using ih

/-- Replacing the (under `Nodup` keys, unique) entry holding child `ch`
by `c2` changes the visit sum by exactly the difference of the two. -/
theorem updateChild_sum {A : Type} {k : ℕ} {aS : A} {ch c2 : TreeNode A} :
    ∀ {l : List (ℕ × A × TreeNode A)}, (l.map (fun e => e.1)).Nodup →
      (k, aS, ch) ∈ l →
      ((updateChild k c2 l).map (fun e => e.2.2.visits)).sum + ch.visits
        = (l.map (fun e => e.2.2.visits)).sum + c2.visits := by
  intro l
  induction l with
  | nil => intro _ hmem; simp at hmem
  | cons e rest ih =>
    intro hnd hmem
    rcases e with ⟨k1, a1, c1⟩
    rw [updateChild]
    by_cases hk : k1 = k
    · subst hk
      rw [if_pos rfl]
      rcases List.mem_cons.1 hmem with h1 | h1
      · have hch : ch = c1 := by
          have := congrArg (fun e => e.2.2) h1
          simpa using this
        subst hch
        simp only [List.map_cons, List.sum_cons]
        omega
      · exfalso
        have hin : k1 ∈ rest.map (fun e => e.1) := List.mem_map.2 ⟨_, h1, rfl⟩
        simp only [List.map_cons, List.nodup_cons] at hnd
        exact hnd.1 hin
    · rw [if_neg hk]
      rcases List.mem_cons.1 hmem with h1 | h1
      · exfalso
        apply hk
        have := congrArg (fun e => e.1) h1
        simpa using this.symm
      · have hnd2 : (rest.map (fun e => e.1)).Nodup := by
          simp only [List.map_cons, List.nodup_cons] at hnd
          exact hnd.2
        have := ih hnd2 h1
        simp only [List.map_cons, List.sum_cons]
        omega

theorem updateChild_mem {A : Type} {k : ℕ} {c2 : TreeNode A} :
    ∀ {l : List (ℕ × A × TreeNode A)} (e : ℕ × A × TreeNode A),
      e ∈ updateChild k c2 l → e.2.2 = c2 ∨ e ∈ l := by
  intro l
  induction l with
  | nil => intro e he; simp [updateChild] at he
  | cons e1 rest ih =>
    intro e he
    rcases e1 with ⟨k1, a1, c1⟩
    rw [updateChild] at he
    split at he
    · rcases List.mem_cons.1 he with h1 | h1
      · left; rw [h1]
      · right; exact List.mem_cons_of_mem _ h1
    · rcases List.mem_cons.1 he with h1 | h1
      · right; rw [h1]; exact List.mem_cons_self _ _
      · rcases ih e h1 with h2 | h2
        · left; exact h2
        · right; exact List.mem_cons_of_mem _ h2

theorem WF.nodupKeys {A : Type} {n : TreeNode A} (h : WF n) :
    (n.children.map (fun e => e.1)).Nodup := by
  cases h with
  | mk cs a p v r hnd hall => simpa using hnd

theorem WF.childWF {A : Type} {n : TreeNode A} (h : WF n) :
    ∀ e ∈ n.children, WF e.2.2 := by
  cases h with
  | mk cs a p v r hnd hall => simpa using hall

theorem WF.ofChildren {A : Type} (n : TreeNode A)
    (cs : List (ℕ × A × TreeNode A)) (hnd : (cs.map (fun e => e.1)).Nodup)
    (hall : ∀ e ∈ cs, WF e.2.2) : WF (withChildren n cs) := by
  cases n
  exact WF.mk _ _ _ _ _ hnd hall

theorem WF.bp {A : Type} (result : ℚ) {n : TreeNode A} (h : WF n) :
    WF (bpNode result n) := by
  cases n
  cases h with
  | mk cs a p v r hnd hall => exact WF.mk _ _ _ _ _ hnd hall

/-- The playout loop's result does not change when given more fuel: the
code has no internal timeout, termination is driven entirely by the
state reporting `ended` or running out of actions. -/
theorem playout_mono {S A B : Type} (G : Game S A B) :
    ∀ (fuel : ℕ) (s : S) (tape : List ℕ) (res : S × List ℕ),
      playout G fuel s tape = some res →
      ∀ fuel2, fuel ≤ fuel2 → playout G fuel2 s tape = some res := by
  intro fuel
  induction fuel with
  | zero =>
    intro s tape res h fuel2 _
    cases fuel2 with
    | zero => exact h
    | succ f3 =>
      rw [playout] at h
      rw [playout]
      by_cases he : G.ended s = true
      · rw [if_pos he] at h ⊢
        exact h
      · rw [if_neg he] at h ⊢
        by_cases ha : (G.getActions s).isEmpty = true
        · rw [if_pos ha] at h ⊢
          exact h
        · rw [if_neg ha] at h
          exact absurd h (by simp)
  | succ fuel ih =>
    intro s tape res h fuel2 hle
    obtain ⟨f3, rfl⟩ : ∃ f3, fuel2 = f3 + 1 := ⟨fuel2 - 1, by omega⟩
    rw [playout] at h
    rw [playout]
    by_cases he : G.ended s = true
    · rw [if_pos he] at h ⊢
      exact h
    · rw [if_neg he] at h ⊢
      by_cases ha : (G.getActions s).isEmpty = true
      · rw [if_pos ha] at h ⊢
        exact h
      · rw [if_neg ha] at h ⊢
        cases hp : pick tape (G.getActions s) with
        | none =>
          rw [hp] at h
          exact Option.noConfusion h
        | some p =>
          rcases p with ⟨a, tape1⟩
          rw [hp] at h
          exact ih _ _ _ h f3 (by omega)

/-- A finished playout ends in a state that reports `ended` or has no
legal actions. -/
theorem playout_end {S A B : Type} (G : Game S A B) :
    ∀ (fuel : ℕ) (s : S) (tape : List ℕ) (s2 : S) (tape2 : List ℕ),
      playout G fuel s tape = some (s2, tape2) →
      G.ended s2 = true ∨ G.getActions s2 = [] := by
  intro fuel
  induction fuel with
  | zero =>
    intro s tape s2 tape2 h
    rw [playout] at h
    by_cases he : G.ended s = true
    · rw [if_pos he] at h
      cases h
      left; exact he
    · rw [if_neg he] at h
      by_cases ha : (G.getActions s).isEmpty = true
      · rw [if_pos ha] at h
        cases h
        right
        rwa [← List.isEmpty_iff]
      · rw [if_neg ha] at h
        exact absurd h (by simp)
  | succ fuel ih =>
    intro s tape s2 tape2 h
    rw [playout] at h
    by_cases he : G.ended s = true
    · rw [if_pos he] at h
      cases h
      left; exact he
    · rw [if_neg he] at h
      by_cases ha : (G.getActions s).isEmpty = true
      · rw [if_pos ha] at h
        cases h
        right
        rwa [← List.isEmpty_iff]
      · rw [if_neg ha] at h
        cases hp : pick tape (G.getActions s) with
        | none =>
          rw [hp] at h
          exact Option.noConfusion h
        | some p =>
          rcases p with ⟨a, tape1⟩
          rw [hp] at h
          exact ih _ _ _ _ h

@[simp] theorem childVisitSum_bpNode {A : Type} (r : ℚ) (n : TreeNode A) :
    childVisitSum (bpNode r n) = childVisitSum n := by
  simp [childVisitSum]

@[simp] theorem childVisitSum_withChildren {A : Type} (n : TreeNode A)
    (cs : List (ℕ × A × TreeNode A)) :
    childVisitSum (withChildren n cs) = (cs.map (fun e => e.2.2.visits)).sum := by
  simp [childVisitSum]

/-- A successful `rollout` returns this node backpropagated once with the
returned result. -/
theorem rollout_ok {S A B : Type} (G : Game S A B) {fuel : ℕ} {n : TreeNode A}
    {s : S} {tape tape2 : List ℕ} {t2 : TreeNode A} {r : ℚ}
    (h : rollout G fuel n s tape = .ok (t2, r, tape2)) : t2 = bpNode r n := by
  rw [rollout] at h
  cases hp : playout G fuel s tape with
  | none =>
    rw [hp] at h
    exact Except.noConfusion h
  | some p =>
    rcases p with ⟨s2, tape3⟩
    rw [hp] at h
    cases h
    rfl

/-- One `select` call, when it succeeds, increments this node's visit
count by exactly one, and increments the visit sum over this node's
direct children by exactly one unless the working state had no legal
actions; it also preserves well-formedness of the tree. -/
theorem select_spec {S A B : Type} (G : Game S A B) :
    ∀ (fuel : ℕ) (n : TreeNode A) (s : S) (tape tape2 : List ℕ)
      (t2 : TreeNode A) (r : ℚ),
      WF n → select G fuel n s tape = .ok (t2, r, tape2) →
      t2.visits = n.visits + 1 ∧
      childVisitSum t2 = childVisitSum n +
        (if (G.getActions s).isEmpty then 0 else 1) ∧
      WF t2 := by
  intro fuel
  induction fuel with
  | zero =>
    intro n s tape tape2 t2 r _ h
    exact Except.noConfusion h
  | succ fuel ih =>
    intro n s tape tape2 t2 r hwf h
    rw [select] at h
    by_cases hemp : (G.getActions s).isEmpty = true
    · rw [if_pos hemp] at h
      cases h
      refine ⟨by simp, ?_, WF.bp _ hwf⟩
      simp [hemp]
    · rw [if_neg hemp] at h
      by_cases hunex :
          ((G.getActions s).filter (fun a => !(hasKey n (G.key a)))).isEmpty = true
      · have hunex2 : (!((G.getActions s).filter
            (fun a => !(hasKey n (G.key a)))).isEmpty) = false := by
          simp [hunex]
        rw [hunex2] at h
        rw [if_neg (by simp)] at h
        by_cases hch : n.children.isEmpty = true
        · -- empty children dict and no unexplored action is impossible
          -- when the action list is nonempty: every action would be
          -- unexplored.
          exfalso
          have hall : (G.getActions s).filter
              (fun a => !(hasKey n (G.key a))) = G.getActions s := by
            apply List.filter_eq_self.2
            intro a _
            have : hasKey n (G.key a) = false := by
              simp [hasKey, List.isEmpty_iff.1 hch]
            simp [this]
          rw [hall] at hunex
          exact hemp hunex
        · have hch2 : (!n.children.isEmpty) = true := by
            simp [Bool.not_eq_true] at hch ⊢
            exact hch
          rw [if_pos hch2] at h
          cases hmax : maxBy
              (fun e => e.2.2.ucbScore n.visits n.param)
              (n.children.filter
                (fun e => ((G.getActions s).map G.key).contains e.1)) with
          | none =>
            simp only [hmax] at h
            exact Except.noConfusion h
          | some trip =>
            rcases trip with ⟨k, aS, ch⟩
            simp only [hmax] at h
            have hmem : (k, aS, ch) ∈ n.children :=
              (List.mem_filter.1 (maxBy_mem _ hmax)).1
            cases hdl : dictLast G (G.getActions s) k with
            | none =>
              simp only [hdl] at h
              exact Except.noConfusion h
            | some aCur =>
              simp only [hdl] at h
              cases hsub : select G fuel ch (G.step s aCur) tape with
              | error e =>
                simp only [hsub] at h
                exact Except.noConfusion h
              | ok trip2 =>
                rcases trip2 with ⟨ch2, r2, tape3⟩
                simp only [hsub] at h
                cases h
                obtain ⟨hv, _, hwf2⟩ :=
                  ih ch (G.step s aCur) _ _ _ _ (hwf.childWF _ hmem) hsub
                refine ⟨by simp, ?_, ?_⟩
                · have hsum := @updateChild_sum A k aS ch ch2 n.children
                    hwf.nodupKeys hmem
                  have h1 : childVisitSum
                      (bpNode r (withChildren n (updateChild k ch2 n.children)))
                      = ((updateChild k ch2 n.children).map
                        (fun e => e.2.2.visits)).sum := by simp
                  have h2 : childVisitSum n
                      = (n.children.map (fun e => e.2.2.visits)).sum := rfl
                  rw [h1, h2, if_neg hemp]
                  omega
                · refine WF.bp _ (WF.ofChildren _ _ ?_ ?_)
                  · rw [updateChild_keys]
                    exact hwf.nodupKeys
                  · intro e he
                    rcases updateChild_mem e he with h2 | h2
                    · rw [h2]; exact hwf2
                    · exact hwf.childWF e h2
      · -- unexplored actions exist: expand
        have hunex2 : (!((G.getActions s).filter
            (fun a => !(hasKey n (G.key a)))).isEmpty) = true := by
          simp [Bool.not_eq_true] at hunex ⊢
          exact hunex
        rw [if_pos hunex2] at h
        rw [expand] at h
        obtain ⟨u, us, hul⟩ : ∃ u us,
            (G.getActions s).filter (fun a => !(hasKey n (G.key a)))
              = u :: us := by
          cases hl : (G.getActions s).filter (fun a => !(hasKey n (G.key a))) with
          | nil => rw [hl] at hunex; simp at hunex
          | cons u us => exact ⟨u, us, rfl⟩
        rw [hul] at h
        rcases pick_cons tape u us with ⟨b, hpick, hbmem⟩
        simp only [hpick] at h
        have hbfilter : b ∈ (G.getActions s).filter
            (fun a => !(hasKey n (G.key a))) := hul ▸ hbmem
        have hbkey : hasKey n (G.key b) = false := by
          have := (List.mem_filter.1 hbfilter).2
          simpa using this
        cases hro : rollout G fuel (TreeNode.mk [] (some b) n.param 0 0)
            (G.step s b) tape.tail with
        | error e =>
          simp only [hro] at h
          exact Except.noConfusion h
        | ok trip =>
          rcases trip with ⟨child2, r2, tape3⟩
          simp only [hro] at h
          cases h
          have hc2 := rollout_ok G hro
          refine ⟨by simp, ?_, ?_⟩
          · simp only [childVisitSum_bpNode, childVisitSum_withChildren,
              List.map_append, List.sum_append, if_neg hemp]
            rw [hc2]
            simp [childVisitSum]
          · refine WF.bp _ (WF.ofChildren _ _ ?_ ?_)
            · simp only [List.map_append, List.map_cons, List.map_nil]
              rw [List.nodup_append]
              refine ⟨hwf.nodupKeys, List.nodup_singleton _, ?_⟩
              intro x hx
              rcases List.mem_map.1 hx with ⟨e, he, rfl⟩
              have := hasKey_eq_false hbkey e he
              simp
              intro hcontra
              exact this hcontra
            · intro e he
              rcases List.mem_append.1 he with h2 | h2
              · exact hwf.childWF e h2
              · simp only [List.mem_singleton] at h2
                rw [h2, hc2]
                exact WF.bp _ (WF.mk _ _ _ _ _ (by simp) (by simp))

/-- Effect of `N` search iterations on the root's statistics: the root
gains `N` visits; the visit sum over its direct children gains `N` minus
the number of iterations whose working clone had no legal actions. -/
theorem runIters_spec {S A B : Type} (G : Game S A B) (s : S) :
    ∀ (N fuel : ℕ) (t0 : TreeNode A) (tape tape2 : List ℕ) (t : TreeNode A)
      (c : ℕ), WF t0 → runIters G s N fuel t0 tape = .ok (t, tape2, c) →
      t.visits = t0.visits + N ∧
      childVisitSum t + c = childVisitSum t0 + N ∧
      c ≤ N ∧ WF t := by
  intro N
  induction N with
  | zero =>
    intro fuel t0 tape tape2 t c hwf h
    rw [runIters] at h
    cases h
    exact ⟨rfl, rfl, le_refl _, hwf⟩
  | succ N ih =>
    intro fuel t0 tape tape2 t c hwf h
    rw [runIters] at h
    cases hsel : select G fuel t0 (G.copyUndet (G.copyUndet s)) tape with
    | error e =>
      simp only [hsel] at h
      exact Except.noConfusion h
    | ok trip =>
      rcases trip with ⟨t1, r1, tape1⟩
      simp only [hsel] at h
      obtain ⟨hv1, hs1, hwf1⟩ :=
        select_spec G fuel t0 (G.copyUndet (G.copyUndet s)) tape tape1 t1 r1
          hwf hsel
      cases hrun : runIters G s N fuel t1 tape1 with
      | error e =>
        simp only [hrun] at h
        exact Except.noConfusion h
      | ok trip2 =>
        rcases trip2 with ⟨t2, tape3, c2⟩
        simp only [hrun] at h
        cases h
        obtain ⟨hv2, hs2, hc2, hwf2⟩ := ih fuel t1 tape1 _ _ _ hwf1 hrun
        by_cases hleaf :
            (G.getActions (G.copyUndet (G.copyUndet s))).isEmpty = true
        · rw [if_pos hleaf] at hs1 ⊢
          refine ⟨by omega, by omega, by omega, hwf2⟩
        · rw [if_neg hleaf] at hs1 ⊢
          refine ⟨by omega, by omega, by omega, hwf2⟩

/-- C4: backpropagation increments `visits` by exactly 1 and adds the
same undiscounted reward to `total_reward` on the starting node and on
every ancestor up to and including the root, with no decay or
sign-flipping by depth; in particular, on the chain `B → A → root` with
reward `5`, every node ends with `visits = 1` and `total_reward = 5`. -/
theorem backpropagate_uniform {A : Type} (result : ℚ)
    (chain : List (TreeNode A)) :
    backpropagate result chain = chain.map (bpNode result) ∧
    (∀ n : TreeNode A, (bpNode result n).visits = n.visits + 1 ∧
      (bpNode result n).totalReward = n.totalReward + result ∧
      (bpNode result n).children = n.children) ∧
    backpropagate (5 : ℚ)
        [TreeNode.mk ([] : List (ℕ × ℕ × TreeNode ℕ)) none 0 0 0,
          TreeNode.mk [] none 0 0 0, TreeNode.mk [] none 0 0 0]
      = [TreeNode.mk [] none 0 1 5, TreeNode.mk [] none 0 1 5,
          TreeNode.mk [] none 0 1 5] := by
  refine ⟨?_, fun n => ⟨by simp, by simp, by simp⟩, ?_⟩
  · induction chain with
    | nil => rfl
    | cons n rest ih =>
      rw [backpropagate]
      simp [ih]
  · norm_num [backpropagate, bpNode]

/-- C5: when the state's legal-action list has length exactly 1,
`choose_card` returns that single action converted via `to_action`,
for every iteration budget, fuel and random tape (in particular the
result does not depend on the search at all). -/
theorem chooseCard_single_action {S A B : Type} (G : Game S A B) (s : S)
    (a : A) (h : G.getActions s = [a]) (p : ℚ) (N fuel : ℕ)
    (tape : List ℕ) :
    chooseCard G p N fuel s tape = .ok (G.toAction a s, false) := by
  rw [chooseCard, h]
  simp

/-- C5 witness: the single-action fast path on a concrete game, with a
nonzero iteration budget and zero fuel. -/
theorem chooseCard_single_action_witness :
    singleActionGame.getActions 0 = [3] ∧
    chooseCard singleActionGame 0 7 0 0 [5, 5]
      = .ok (singleActionGame.toAction 3 0, false) :=
  ⟨rfl, chooseCard_single_action singleActionGame 0 3 rfl 0 7 0 [5, 5]⟩

/-- C6 counterexample: two states of `negScoreGame` with equal score and
strictly greater health in the second; the claim says the second must
receive a strictly greater evaluation, but the evaluation heuristic
multiplies the health bonus into a negative score, so it is strictly
smaller instead. -/
theorem heuristicScore_not_health_monotone :
    negScoreGame.score 0 = negScoreGame.score 1 ∧
    negScoreGame.health 0 < negScoreGame.health 1 ∧
    ¬ heuristicScore negScoreGame 0 < heuristicScore negScoreGame 1 := by
  refine ⟨rfl, by norm_num [negScoreGame, toyGame], ?_⟩
  norm_num [heuristicScore, negScoreGame, toyGame]

/-- C6 amended: the evaluation heuristic is a pure function of the
state's score and health signals, and for two states with equal
*positive* score the one with higher health receives a strictly greater
evaluation. -/
theorem heuristicScore_pure_and_pos_monotone {S A B : Type}
    (G : Game S A B) (s t : S) :
    (G.score s = G.score t → G.health s = G.health t →
      heuristicScore G s = heuristicScore G t) ∧
    (G.score s = G.score t → 0 < G.score s → G.health s < G.health t →
      heuristicScore G s < heuristicScore G t) := by
  constructor
  · intro h1 h2
    rw [heuristicScore, heuristicScore, h1, h2]
  · intro h1 h2 h3
    rw [heuristicScore, heuristicScore, ← h1]
    have h4 : (1/2 : ℚ) + 1/2 * G.health s < 1/2 + 1/2 * G.health t := by
      linarith
    exact mul_lt_mul_of_pos_left h4 h2

/-- C6 amended witness: purity and positive-score monotonicity at
concrete states of `posScoreGame`. -/
theorem heuristicScore_pure_and_pos_monotone_witness :
    heuristicScore posScoreGame 0 = heuristicScore posScoreGame 0 ∧
    heuristicScore posScoreGame 0 < heuristicScore posScoreGame 1 :=
  ⟨(heuristicScore_pure_and_pos_monotone posScoreGame 0 0).1 rfl rfl,
    (heuristicScore_pure_and_pos_monotone posScoreGame 0 1).2 rfl (by decide)
      (by decide)⟩

/-- C7: after `N` iterations on a fresh root, the root's visit count is
exactly `N`, and the sum of `visits` over the root's direct children is
`N` minus the number of iterations whose working clone had no legal
actions (the iterations that terminated at the root itself as a leaf). -/
theorem visit_conservation {S A B : Type} (G : Game S A B) (s : S) (p : ℚ)
    (N fuel : ℕ) (tape tape2 : List ℕ) (t : TreeNode A) (c : ℕ)
    (h : runIters G s N fuel (TreeNode.mk [] none p 0 0) tape
      = .ok (t, tape2, c)) :
    t.visits = N ∧ c ≤ N ∧ childVisitSum t + c = N := by
  obtain ⟨h1, h2, h3, _⟩ := runIters_spec G s N fuel _ tape tape2 t c
    (WF.mk _ _ _ _ _ (by simp) (by simp)) h
  refine ⟨by simpa using h1, h3, ?_⟩
  have h4 : childVisitSum (TreeNode.mk ([] : List (ℕ × A × TreeNode A))
      none p 0 0) = 0 := rfl
  rw [h4] at h2
  simpa using h2

/-- C7 witness: two iterations of `twoActionGame` search expand both
actions; no iteration hits the zero-action case, and the children's
visits sum to `2`. -/
theorem visit_conservation_witness :
    twoActionTree.visits = 2 ∧ 0 ≤ 2 ∧ childVisitSum twoActionTree + 0 = 2 :=
  visit_conservation twoActionGame 0 0 2 1 [0, 0] [] twoActionTree 0 (by
    norm_num [runIters, select, expand, rollout, playout, pick, hasKey,
      heuristicScore, twoActionGame, toyGame, twoActionTree, bpNode,
      withChildren, maxBy, maxBy1, getBest, dictLast])

/-- C3: for `visits = v > 0`, `total_reward = r`, parent visit count
`pv ≥ 1` and exploration constant `c`, `ucb_score` equals
`r/v + c*sqrt(ln(pv)/v)` exactly; for `v = 0` it is `+infinity`, strictly
above every finite priority, and Python's `max` by `ucb_score` never
selects a positive-visits child when a zero-visits sibling is present. -/
theorem ucb_formula_and_infinite_priority {A : Type}
    (ch : List (ℕ × A × TreeNode A)) (act : Option A) (p c : ℚ) (v pv : ℕ)
    (r : ℚ) (hv : 0 < v) (_hp : 1 ≤ pv) :
    (TreeNode.mk ch act p v r).ucbScore pv c
      = ((((r : ℚ) : ℝ) / ((v : ℕ) : ℝ) + ((c : ℚ) : ℝ)
          * Real.sqrt (Real.log ((pv : ℕ) : ℝ) / ((v : ℕ) : ℝ)) : ℝ) : EReal) ∧
    (TreeNode.mk ch act p 0 r).ucbScore pv c = ⊤ ∧
    (∀ m : TreeNode A, m.visits ≠ 0 →
      m.ucbScore pv c < (TreeNode.mk ch act p 0 r).ucbScore pv c) ∧
    (∀ (cand : List (ℕ × A × TreeNode A)) (chosen : ℕ × A × TreeNode A),
      maxBy (fun e => e.2.2.ucbScore pv c) cand = some chosen →
      (∃ e ∈ cand, e.2.2.visits = 0) → chosen.2.2.visits = 0) := by
  have htop : (TreeNode.mk ch act p 0 r).ucbScore pv c = ⊤ := by
    rw [TreeNode.ucbScore]
    simp
  have hfin : ∀ m : TreeNode A, m.visits ≠ 0 →
      ∃ x : ℝ, m.ucbScore pv c = (x : EReal) := by
    intro m hm
    rw [TreeNode.ucbScore, if_neg hm]
    exact ⟨_, rfl⟩
  refine ⟨?_, htop, ?_, ?_⟩
  · have hv2 : (TreeNode.mk ch act p v r).visits ≠ 0 := by
      simp
      omega
    rw [TreeNode.ucbScore, if_neg hv2]
    have havg : ((TreeNode.mk ch act p v r).averageScore : ℝ)
        = ((r : ℚ) : ℝ) / ((v : ℕ) : ℝ) := by
      rw [TreeNode.averageScore, if_neg hv2]
      push_cast
      simp
    rw [havg]
    simp
  · intro m hm
    rcases hfin m hm with ⟨x, hx⟩
    rw [hx, htop]
    exact EReal.coe_lt_top x
  · rintro cand chosen hmax ⟨e, he, hev⟩
    have hge := maxBy_ge _ hmax e he
    have hetop : e.2.2.ucbScore pv c = ⊤ := by
      rw [TreeNode.ucbScore, if_pos hev]
    rw [hetop] at hge
    by_contra hne
    rcases hfin chosen.2.2 hne with ⟨x, hx⟩
    rw [hx] at hge
    exact absurd (top_le_iff.1 hge) (EReal.coe_ne_top x)

/-- C3 witness: the formula instantiated at a node with one visit, zero
reward, parent visit count 1 and exploration constant 0. -/
theorem ucb_formula_and_infinite_priority_witness :
    (0 : ℕ) < 1 ∧ (1 : ℕ) ≤ 1 ∧
    (TreeNode.mk ([] : List (ℕ × ℕ × TreeNode ℕ)) none 0 1 0).ucbScore 1 0
      = ((((0 : ℚ) : ℝ) / (((1 : ℕ) : ℕ) : ℝ) + ((0 : ℚ) : ℝ)
          * Real.sqrt (Real.log (((1 : ℕ) : ℕ) : ℝ)
            / (((1 : ℕ) : ℕ) : ℝ)) : ℝ) : EReal) :=
  ⟨by decide, by decide,
    (ucb_formula_and_infinite_priority ([] : List (ℕ × ℕ × TreeNode ℕ))
      none 0 0 1 1 0 (by decide) (by decide)).1⟩

/-- C9: a rollout whose playout loop reaches, within the modelling fuel,
a state that is `ended` or has no legal actions, evaluates that state
and backpropagates it exactly once from the given node; the result is
unchanged by giving more fuel (the loop has no internal timeout, its
termination is driven entirely by the external state). -/
theorem rollout_plays_to_termination {S A B : Type} (G : Game S A B)
    (fuel : ℕ) (n : TreeNode A) (s s2 : S) (tape tape2 : List ℕ)
    (h : playout G fuel s tape = some (s2, tape2)) :
    (G.ended s2 = true ∨ G.getActions s2 = []) ∧
    (∀ fuel2, fuel ≤ fuel2 → playout G fuel2 s tape = some (s2, tape2)) ∧
    rollout G fuel n s tape
      = .ok (bpNode (heuristicScore G s2) n, heuristicScore G s2, tape2) ∧
    (bpNode (heuristicScore G s2) n).visits = n.visits + 1 := by
  refine ⟨playout_end G fuel s tape s2 tape2 h,
    playout_mono G fuel s tape _ h, ?_, by simp⟩
  rw [rollout, h]

/-- C9 witness: a one-step playout of `oneStepGame` from state 0 reaches
the terminal state 14. -/
theorem rollout_plays_to_termination_witness :
    (oneStepGame.ended 14 = true ∨ oneStepGame.getActions 14 = []) ∧
    (∀ fuel2, 1 ≤ fuel2 → playout oneStepGame fuel2 0 [0] = some (14, [])) ∧
    rollout oneStepGame 1 (TreeNode.mk [] none 0 0 0) 0 [0]
      = .ok (bpNode (heuristicScore oneStepGame 14)
          (TreeNode.mk [] none 0 0 0), heuristicScore oneStepGame 14, []) ∧
    (bpNode (heuristicScore oneStepGame 14)
      (TreeNode.mk ([] : List (ℕ × ℕ × TreeNode ℕ)) none 0 0 0)).visits
        = 0 + 1 :=
  rollout_plays_to_termination oneStepGame 1 (TreeNode.mk [] none 0 0 0) 0 14
    [0] [] (by norm_num [playout, pick, oneStepGame, toyGame])

/-- C1 counterexample: a one-iteration search in `staleCloneGame`.  The
stochastic clones offer only action `9`, the real state only actions `1`
and `2`; `choose_card` nevertheless returns `9`, because `get_best` does
not re-filter the root's children against the real state's legal
actions.  The claim's consequence that the returned action is legal in
the real state is therefore false. -/
theorem chooseCard_returns_illegal_action :
    chooseCard staleCloneGame 0 1 1 0 [] = .ok (9, false) ∧
    (9 : ℕ) ∉ staleCloneGame.getActions 0 := by
  constructor
  · norm_num [chooseCard, runIters, select, expand, rollout, playout, pick,
      hasKey, heuristicScore, staleCloneGame, toyGame, bpNode, withChildren,
      getBest, maxBy1]
  · norm_num [staleCloneGame, toyGame]

/-- C1 amended: after the iterations, `choose_card` returns the action of
the root child with the highest average score among ALL of the root's
children — Python's `max` over the unfiltered children dict, first
maximal element on ties — with no re-filtering against the real state's
legal actions (and hence no guarantee the returned action is legal
there). -/
theorem chooseCard_best_by_average_unfiltered {S A B : Type}
    (G : Game S A B) (p : ℚ) (N fuel : ℕ) (s : S) (tape tape1 : List ℕ)
    (t : TreeNode A) (cnt : ℕ) (e : ℕ × A × TreeNode A)
    (rest : List (ℕ × A × TreeNode A))
    (hlen : (G.getActions s).length ≠ 1)
    (hrun : runIters G s N fuel (TreeNode.mk [] none p 0 0) tape
      = .ok (t, tape1, cnt))
    (hch : t.children = e :: rest) :
    chooseCard G p N fuel s tape
      = .ok (G.toAction
          (maxBy1 (fun e2 => e2.2.2.averageScore) e rest).2.1 s, false) ∧
    ∀ e2 ∈ t.children, e2.2.2.averageScore
      ≤ (maxBy1 (fun e2 => e2.2.2.averageScore) e rest).2.2.averageScore := by
  constructor
  · rw [chooseCard, if_neg hlen]
    simp only [hrun]
    rw [getBest, hch]
  · intro e2 he2
    rw [hch] at he2
    exact maxBy1_ge (fun e2 => e2.2.2.averageScore) e rest e2 he2

/-- C1 amended witness: the one-iteration `staleCloneGame` search again;
the returned action is the average-score maximum over all children. -/
theorem chooseCard_best_by_average_unfiltered_witness :
    chooseCard staleCloneGame 0 1 1 0 []
      = .ok (staleCloneGame.toAction
          (maxBy1 (fun e2 => e2.2.2.averageScore)
            (9, 9, TreeNode.mk [] (some 9) 0 1 0) []).2.1 0, false) ∧
    ∀ e2 ∈ staleCloneTree.children, e2.2.2.averageScore
      ≤ (maxBy1 (fun e2 => e2.2.2.averageScore)
          (9, 9, TreeNode.mk [] (some 9) 0 1 0) []).2.2.averageScore :=
  chooseCard_best_by_average_unfiltered staleCloneGame 0 1 1 0 [] []
    staleCloneTree 0 (9, 9, TreeNode.mk [] (some 9) 0 1 0) []
    (by norm_num [staleCloneGame, toyGame])
    (by norm_num [runIters, select, expand, rollout, playout, pick, hasKey,
      heuristicScore, staleCloneGame, toyGame, staleCloneTree, bpNode,
      withChildren])
    rfl

/-- C2 counterexample: with an empty legal-action list in the real state
(and hence an empty tree), `choose_card` does not recover with a warning
and a random fallback — `random.choice` on the empty action list raises
`IndexError`, a thrown failure that propagates to the caller. -/
theorem chooseCard_raises_on_empty_actions :
    emptyActionsGame.getActions 0 = [] ∧
    chooseCard emptyActionsGame 0 1 1 0 [] = .error .indexError := by
  refine ⟨rfl, ?_⟩
  norm_num [chooseCard, runIters, select, getBest, pick, heuristicScore,
    emptyActionsGame, toyGame, bpNode]

/-- C2 amended: when the tree ends with no children, `get_best` falls
back to a uniform-random choice among the real state's legal actions —
inside `get_best`, with no warning printed (the warning flag stays
`false`); but when that action list is empty this raises `IndexError`,
a thrown failure, rather than degrading to a warning. -/
theorem chooseCard_fallback_and_indexError {S A B : Type} (G : Game S A B)
    (p : ℚ) (N fuel : ℕ) (s : S) (tape tape1 : List ℕ) (t : TreeNode A)
    (cnt : ℕ) (hlen : (G.getActions s).length ≠ 1)
    (hrun : runIters G s N fuel (TreeNode.mk [] none p 0 0) tape
      = .ok (t, tape1, cnt))
    (hch : t.children = []) :
    (G.getActions s = [] →
      chooseCard G p N fuel s tape = .error .indexError) ∧
    (G.getActions s ≠ [] → ∃ a, a ∈ G.getActions s ∧
      chooseCard G p N fuel s tape = .ok (G.toAction a s, false)) := by
  constructor
  · intro hact
    simp only [chooseCard, if_neg hlen, hrun, getBest, hch, hact, pick]
    split
    · rfl
    · rfl
  · intro hne
    obtain ⟨a0, rest, hact⟩ := List.exists_cons_of_ne_nil hne
    rcases pick_cons tape1 a0 rest with ⟨b, hpick, hbmem⟩
    refine ⟨b, hact ▸ hbmem, ?_⟩
    simp only [chooseCard, if_neg hlen, hrun, getBest, hch, hact, hpick]
    rw [if_neg (hact ▸ hlen)]

/-- C2 amended witness: a zero-iteration search over an empty action
list reaches the `IndexError`. -/
theorem chooseCard_fallback_and_indexError_witness :
    chooseCard emptyActionsGame 0 0 1 0 [] = .error .indexError :=
  (chooseCard_fallback_and_indexError emptyActionsGame 0 0 1 0 [] []
    (TreeNode.mk [] none 0 0 0) 0 (by norm_num [emptyActionsGame, toyGame])
    rfl rfl).1 rfl

/-- C8 counterexample: a node whose children dict is non-empty but whose
recorded action key `5` is not legal in the working state (only `7` is).
The claim says `select` must treat this node as a leaf without creating
a child; instead the legal action counts as unexplored and `select`
expands it, growing the children dict from one entry to two. -/
theorem select_expands_on_stale_children :
    staleChildTree.children.length = 1 ∧
    (∀ e ∈ staleChildTree.children,
      e.1 ∉ (staleChildGame.getActions 0).map staleChildGame.key) ∧
    staleChildGame.getActions 0 ≠ [] ∧
    select staleChildGame 1 staleChildTree 0 []
      = .ok (staleChildTreeAfter, 0, []) ∧
    staleChildTreeAfter.children.length = 2 := by
  refine ⟨rfl, ?_, ?_, ?_, rfl⟩
  · norm_num [staleChildTree, staleChildGame, toyGame]
  · norm_num [staleChildGame, toyGame]
  · norm_num [select, expand, rollout, playout, pick, hasKey,
      heuristicScore, staleChildGame, toyGame, staleChildTree,
      staleChildTreeAfter, bpNode, withChildren]

/-- C8 amended: when the working state has no legal actions, `select`
does treat the node as a leaf: it evaluates the state, backpropagates
from this node (one visit), creates no child, descends no further, and
raises no error; but when the recorded children are stale and other
actions are legal, those actions are unexplored and are expanded (see
the counterexample). -/
theorem select_leaf_on_no_actions {S A B : Type} (G : Game S A B)
    (fuel : ℕ) (n : TreeNode A) (s : S) (tape : List ℕ)
    (h : G.getActions s = []) :
    select G (fuel + 1) n s tape
      = .ok (bpNode (heuristicScore G s) n, heuristicScore G s, tape) ∧
    (bpNode (heuristicScore G s) n).children = n.children ∧
    (bpNode (heuristicScore G s) n).visits = n.visits + 1 := by
  refine ⟨?_, by simp, by simp⟩
  rw [select, h]
  simp

/-- C8 amended witness: the no-legal-actions leaf treatment at a
concrete node and state. -/
theorem select_leaf_on_no_actions_witness :
    select emptyActionsGame (0 + 1) (TreeNode.mk [] none 0 0 0) 0 []
      = .ok (bpNode (heuristicScore emptyActionsGame 0)
          (TreeNode.mk [] none 0 0 0), heuristicScore emptyActionsGame 0,
          []) :=
  (select_leaf_on_no_actions emptyActionsGame 0 (TreeNode.mk [] none 0 0 0)
    0 [] rfl).1

/-- C10: `get_best` never returns Python `None` — every run either raises
or returns an action (from the children dict, or a random choice over
`state.get_actions()`, which raises on an empty list) — and consequently
the `best_action is None` warning-and-fallback branch of `choose_card`
never runs: every `choose_card` run either raises or returns with the
warning flag `false`. -/
theorem getBest_never_none {S A B : Type} (G : Game S A B) (n : TreeNode A)
    (s : S) (tape : List ℕ) (p : ℚ) (N fuel : ℕ) :
    ((∃ e, getBest G n s tape = .error e) ∨
      (∃ a tape2, getBest G n s tape = .ok (some a, tape2))) ∧
    ((∃ e, chooseCard G p N fuel s tape = .error e) ∨
      (∃ b, chooseCard G p N fuel s tape = .ok (b, false))) := by
  have hgb : ∀ (t : TreeNode A) (tp : List ℕ),
      (∃ e, getBest G t s tp = .error e) ∨
      (∃ a tape2, getBest G t s tp = .ok (some a, tape2)) := by
    intro t tp
    rw [getBest]
    cases hc : t.children with
    | nil =>
      cases hp : pick tp (G.getActions s) with
      | none => exact Or.inl ⟨.indexError, rfl⟩
      | some pr =>
        rcases pr with ⟨a, tp2⟩
        exact Or.inr ⟨a, tp2, rfl⟩
    | cons e rest =>
      exact Or.inr
        ⟨(maxBy1 (fun e2 => e2.2.2.averageScore) e rest).2.1, tp, rfl⟩
  refine ⟨hgb n tape, ?_⟩
  rw [chooseCard]
  by_cases hlen : (G.getActions s).length = 1
  · rw [if_pos hlen]
    cases hact : G.getActions s with
    | nil => exact Or.inl ⟨.indexError, rfl⟩
    | cons a rest => exact Or.inr ⟨G.toAction a s, rfl⟩
  · rw [if_neg hlen]
    cases hrun : runIters G s N fuel (TreeNode.mk [] none p 0 0) tape with
    | error e => exact Or.inl ⟨e, rfl⟩
    | ok trip =>
      rcases trip with ⟨t, tape1, cnt⟩
      rcases hgb t tape1 with ⟨e, he⟩ | ⟨a, tape2, he⟩
      · exact Or.inl ⟨e, by simp only [he]⟩
      · exact Or.inr ⟨G.toAction a s, by simp only [he]⟩

end MctsSpec
